import Mathlib

/-!
# Verification of `policies.py` (retrosynthesis_planner)

Shallow embedding of the fingerprint featurization, highway layer,
batch-training loop, top-k prediction, and the `__main__` dataset
construction of `src/policies.py`, together with theorems settling the
specification claims.

Conventions of the embedding:
* machine floats carrying exact algebra (highway layer, labels) are `ℚ`;
* RDKit bit-vector fingerprints are a `numBits` count plus the list of
  on-bit positions (`ExplicitBitVect` exposes exactly `GetNumBits` /
  `GetOnBits`);
* fallible library calls (SMILES parsing, numpy fancy indexing,
  `FoldFingerprint`) return `Option`;
* Python's `random` module is modelled by an explicit stream of naturals
  threaded through the code that consumes it.
-/

namespace Policies

/-- An RDKit explicit bit-vector fingerprint: its size in bits
(`GetNumBits()`) and the positions returned by `GetOnBits()`. -/
structure FP where
  numBits : ℕ
  onBits : List ℕ
deriving DecidableEq, Repr

/-- A parsed molecule (`rdkit.Chem.Mol`).  All chemistry is abstracted into
the multiset of hashed atom-environment identifiers (radius ≤ 2) that the
Morgan algorithm derives from the molecule; the fingerprint call folds each
hash into the requested number of bits. -/
structure Mol where
  features : List ℕ
deriving DecidableEq, Repr

/-- Model of `AllChem.GetMorganFingerprintAsBitVect(mol, 2, nBits)`: a bit vector of
exactly `nBits` bits whose on bits are the molecule's hashed environment
features reduced mod `nBits`. -/
def GetMorganFingerprintAsBitVect (mol : Mol) (nBits : ℕ) : FP :=
  { numBits := nBits, onBits := mol.features.map (fun f => f % nBits) }

/-- Embedding of `fingerprint_mols(mols, fp_dim)` (policies.py lines 34–49): parse each
SMILES string and take its Morgan fingerprint with `nBits = int(fp_dim)`,
accumulating the fingerprints in order.  `parse` stands for
`Chem.MolFromSmiles`; an invalid SMILES raises, hence `none`. -/
def fingerprint_mols (parse : String → Option Mol) (mols : List String)
    (fp_dim : ℕ) : Option (List FP) :=
  match mols with
  | [] => some []
  | s :: ss => do
    let m ← parse s
    let rest ← fingerprint_mols parse ss fp_dim
    pure (GetMorganFingerprintAsBitVect m fp_dim :: rest)

/-- Embedding of `fps_to_arr(fps)` (policies.py lines 11–18).  `fp_dim = len(fps[0])`
(an `IndexError` — `none` — on the empty list); the array has shape
`(len(fps), fp_dim)` and row `i` sets the positions in `fps[i].GetOnBits()`
(numpy raises — `none` — if an on bit is out of the row's range). -/
def fps_to_arr : List FP → Option (List (List Bool))
  | [] => none
  | fp0 :: rest =>
    if (fp0 :: rest).all (fun fp => fp.onBits.all (fun b => b < fp0.numBits)) then
      some ((fp0 :: rest).map
        (fun fp => (List.range fp0.numBits).map (fun j => decide (j ∈ fp.onBits))))
    else none

/-- The elementwise arithmetic of `highway_layer` (policies.py lines
21–31), given the input row `x`, the activation row `H` and the transform
gate row `T`: the carry gate is `C = tf.subtract(1.0, T)` and the output is
`tf.add(tf.multiply(H, T), tf.multiply(x, C))`. -/
def carry_gate (T : List ℚ) : List ℚ :=
  T.map (fun t => 1 - t)

/-- Output row of the highway layer: `H*T + x*C` elementwise. -/
def highway_out (x H T : List ℚ) : List ℚ :=
  List.zipWith (· + ·) (List.zipWith (· * ·) H T)
    (List.zipWith (· * ·) x (carry_gate T))

/-- Embedding of `RolloutPolicyNet.preprocess` (policies.py lines 123–125):
`fps_to_arr(fingerprint_mols(X, self.fp_dim))`. -/
def RolloutPolicyNet.preprocess (parse : String → Option Mol)
    (X : List String) (fp_dim : ℕ) : Option (List (List Bool)) :=
  (fingerprint_mols parse X fp_dim).bind fps_to_arr

/-- Embedding of `ExpansionPolicyNet.preprocess` (policies.py lines 158–161):
`X = fingerprint_mols(X, self.fp_dim); return fps_to_arr(X)`. -/
def ExpansionPolicyNet.preprocess (parse : String → Option Mol)
    (X : List String) (fp_dim : ℕ) : Option (List (List Bool)) :=
  (fingerprint_mols parse X fp_dim).bind fps_to_arr

/-- The featurization pipeline with the program's ambient random stream
made explicit: the pipeline neither consults nor advances the stream
(contrast `shuffle` and `negPhase` below, which consume it). -/
def RolloutPolicyNet.preprocessRun (parse : String → Option Mol)
    (X : List String) (fp_dim : ℕ) (rng : List ℕ) :
    Option (List (List Bool)) × List ℕ :=
  (RolloutPolicyNet.preprocess parse X fp_dim, rng)

/-- Embedding of `n_steps = int(np.ceil(len(X)/batch_size))` (policies.py line 67). -/
def n_steps (n batch_size : ℕ) : ℕ :=
  (n + batch_size - 1) / batch_size

/-- The index slices of one epoch of `train` (policies.py lines 78–81):
batch `i` is `X[l:u]` with `l = i*batch_size`, `u = l + batch_size`. -/
def batches (X : List α) (batch_size : ℕ) : List (List α) :=
  (List.range (n_steps X.length batch_size)).map
    (fun i => (X.drop (i * batch_size)).take batch_size)

/-- Model of `random.shuffle` (CPython: a Fisher–Yates pass driven by the
random stream).  Each draw `r` selects position `r % len`, whose element is
moved to the front; the recursion continues on the remainder.  For any
random stream the result is a permutation of the input, which is the
stdlib contract `train` relies on. -/
def shuffle : List ℕ → List α → List α
  | [], l => l
  | r :: rs, l =>
    match l.drop (r % l.length) with
    | [] => l
    | x :: rest => x :: shuffle rs (l.take (r % l.length) ++ rest)

/-- The per-epoch shuffle of `train` (policies.py lines 73–75):
`xy = list(zip(X, y)); random.shuffle(xy); X, y = zip(*xy)`. -/
def epochShuffle (X : List α) (y : List β) (rng : List ℕ) :
    List α × List β :=
  (shuffle rng (X.zip y)).unzip

/-- The `tf.nn.top_k` comparison on (index, value) pairs: larger value first,
ties broken toward the lower index. -/
def predOrder (a b : ℕ × ℚ) : Prop :=
  b.2 < a.2 ∨ (a.2 = b.2 ∧ a.1 ≤ b.1)

instance : DecidableRel predOrder := fun a b =>
  inferInstanceAs (Decidable (b.2 < a.2 ∨ (a.2 = b.2 ∧ a.1 ≤ b.1)))

/-- Embedding of `self.pred = tf.nn.top_k(pred, k=self.k)` (policies.py line 147) on a
single row of softmax probabilities: the `k` (rule index, probability)
pairs with the largest probabilities, ordered from highest to lowest. -/
def top_k (row : List ℚ) (k : ℕ) : List (ℕ × ℚ) :=
  (List.insertionSort predOrder row.enum).take k

/-- State of the in-scope filter dataset under construction
(policies.py lines 317–344): the example list `X`, the label list `y`
(`1.` positive, `0.` negative) and the `exists` set of `'{prod}_{rule}'`
keys. -/
structure DataState where
  X : List (String × String)
  y : List ℚ
  exSet : List String
deriving DecidableEq, Repr

/-- Inner loop of the positive-example phase (policies.py lines 323–326):
`for r in rules:` append `(prod, r)` with label `1.` and add the key to
`exists`.  The second component tracks the loop variable `r`, read later
by line 337. -/
def posPhaseRules (prod : String) :
    List String → DataState × Option String → DataState × Option String
  | [], acc => acc
  | r :: rs, acc =>
    posPhaseRules prod rs
      ({ X := acc.1.X ++ [(prod, r)]
       , y := acc.1.y ++ [1]
       , exSet := acc.1.exSet ++ [prod ++ "_" ++ r] }, some r)

/-- Outer loop of the positive-example phase (policies.py lines 319–326):
for each product, filter its rules by membership in `expansion_rules`
(`continue` on an empty filtered list is a no-op on the state). -/
def posPhaseAux (er : List String) :
    List (String × List String) → DataState × Option String →
      DataState × Option String
  | [], acc => acc
  | pr :: rest, acc =>
    posPhaseAux er rest
      (posPhaseRules pr.1 (pr.2.filter (fun r => er.contains r)) acc)

/-- The positive-example phase, started from the empty dataset.
`prodToRules` is `prod_to_rules` in iteration order. -/
def posPhase (prodToRules : List (String × List String))
    (expansionRules : List String) : DataState × Option String :=
  posPhaseAux expansionRules prodToRules (⟨[], [], []⟩, none)

/-- The negative-sampling loop (policies.py lines 333–344).  Each
iteration draws a product and a rule by `random.choice`; the random stream
supplies the two indices.  Faithful to the source, the dedup key on line
337 is built from the stale variable `r` (`rLast`, the last positive rule)
rather than from the freshly drawn `rule`.  The source loop runs until
`len(X)` reaches `target`; exhausting the stream models a loop cut off
before termination. -/
def negPhase (prods exprules : List String) (rLast : String)
    (target : ℕ) : List (ℕ × ℕ) → DataState → DataState
  | [], st => st
  | (a, b) :: rest, st =>
    if target ≤ st.X.length then st
    else
      match prods.get? (a % prods.length), exprules.get? (b % exprules.length) with
      | some prod, some rule =>
        if st.exSet.contains (prod ++ "_" ++ rLast) then
          negPhase prods exprules rLast target rest st
        else
          negPhase prods exprules rLast target rest
            { X := st.X ++ [(prod, rule)], y := st.y ++ [0], exSet := st.exSet }
      | _, _ => st

/-- Modelled from the spec: the dedup check C1 describes, in which the
candidate pair `(prod, rule)` itself is tested against the `exists` set
(`key = '{}_{}'.format(prod, rule)`).  Kept separate from `negPhase`, the
model of the source, to compare the two. -/
def negPhaseSpec (prods exprules : List String) (target : ℕ) :
    List (ℕ × ℕ) → DataState → DataState
  | [], st => st
  | (a, b) :: rest, st =>
    if target ≤ st.X.length then st
    else
      match prods.get? (a % prods.length), exprules.get? (b % exprules.length) with
      | some prod, some rule =>
        if st.exSet.contains (prod ++ "_" ++ rule) then
          negPhaseSpec prods exprules target rest st
        else
          negPhaseSpec prods exprules target rest
            { X := st.X ++ [(prod, rule)], y := st.y ++ [0], exSet := st.exSet }
      | _, _ => st

/-- The full in-scope filter dataset construction (policies.py lines
316–345): positives, then `target_size = len(X) * 2`,
`prods = list(prod_to_rules.keys())`, `exprules = list(expansion_rules.keys())`,
then the negative-sampling loop.  `rFallback` stands for the value the
variable `r` holds before line 319 when no positive rule is ever bound. -/
def inscopeDataset (prodToRules : List (String × List String))
    (expansionRules : List String) (rng : List (ℕ × ℕ))
    (rFallback : String) : DataState :=
  negPhase (prodToRules.map Prod.fst) expansionRules
    ((posPhase prodToRules expansionRules).2.getD rFallback)
    ((posPhase prodToRules expansionRules).1.X.length * 2) rng
    (posPhase prodToRules expansionRules).1

/-- The three network classes of policies.py. -/
inductive NetKind
  | rollout
  | expansion
  | inscope
deriving DecidableEq, Repr

/-- Model-level actions of the `__main__` block. -/
inductive ScriptEvent
  | buildNet (k : NetKind)
  | saveRules
  | restoreCheckpoint
  | prepRolloutData
  | prepInScopeData
  | trainNet (k : NetKind)
deriving DecidableEq, Repr

/-- The sequence of model-level actions the `__main__` block performs
(policies.py lines 266–346), in source order: it builds the rollout and
in-scope networks (lines 267–271), saves the rule metadata (279), restores
the checkpoint (289), prepares the rollout dataset (293–304) — the rollout
`train` call on line 305 is commented out — prepares the in-scope dataset
(316–345) and trains the in-scope filter (346).  `ExpansionPolicyNet` is
never instantiated. -/
def mainEvents : List ScriptEvent :=
  [ .buildNet .rollout
  , .buildNet .inscope
  , .saveRules
  , .restoreCheckpoint
  , .prepRolloutData
  , .prepInScopeData
  , .trainNet .inscope ]

instance : IsTotal (ℕ × ℚ) predOrder := by
  constructor
  intro a b
  rcases lt_trichotomy a.2 b.2 with h | h | h
  · exact Or.inr (Or.inl h)
  · rcases le_total a.1 b.1 with h1 | h1
    · exact Or.inl (Or.inr ⟨h, h1⟩)
    · exact Or.inr (Or.inr ⟨h.symm, h1⟩)
  · exact Or.inl (Or.inl h)

instance : IsTrans (ℕ × ℚ) predOrder := by
  constructor
  intro a b c hab hbc
  rcases hab with h1 | ⟨h1, h1i⟩ <;> rcases hbc with h2 | ⟨h2, h2i⟩
  · exact Or.inl (h2.trans h1)
  · exact Or.inl (h2 ▸ h1)
  · exact Or.inl (h1 ▸ h2)
  · exact Or.inr ⟨h1.trans h2, h1i.trans h2i⟩

/-! ## Helper lemmas -/

theorem getElem?_zipWith_some {α β γ : Type} (f : α → β → γ) :
    ∀ (l₁ : List α) (l₂ : List β) (i : ℕ) (a : α) (b : β),
      l₁[i]? = some a → l₂[i]? = some b →
      (List.zipWith f l₁ l₂)[i]? = some (f a b)
  | [], _, i, _, _, h, _ => by simp at h
  | _ :: _, [], i, _, _, _, h => by simp at h
  | x :: xs, y :: ys, 0, a, b, h1, h2 => by
    simp only [List.getElem?_cons_zero, Option.some.injEq] at h1 h2
    simp [List.zipWith, h1, h2]
  | x :: xs, y :: ys, i + 1, a, b, h1, h2 => by
    simp only [List.getElem?_cons_succ] at h1 h2
    simpa using getElem?_zipWith_some f xs ys i a b h1 h2

/-- C7: in `highway_layer`, the carry gate equals one minus the transform
gate elementwise (`C = tf.subtract(1.0, T)`), and the output equals
`H*T + x*(1 - T)`; at a coordinate where the gate is `0` the layer returns
its input, and where it is `1` it returns the activation. -/
theorem highway_layer_algebra (x H T : List ℚ) (i : ℕ) (xi Hi Ti : ℚ)
    (hx : x[i]? = some xi) (hH : H[i]? = some Hi) (hT : T[i]? = some Ti) :
    (carry_gate T)[i]? = some (1 - Ti) ∧
    (highway_out x H T)[i]? = some (Hi * Ti + xi * (1 - Ti)) ∧
    (Ti = 0 → (highway_out x H T)[i]? = some xi) ∧
    (Ti = 1 → (highway_out x H T)[i]? = some Hi) := by
  have hc : (carry_gate T)[i]? = some (1 - Ti) := by
    simp [carry_gate, List.getElem?_map, hT]
  have hout : (highway_out x H T)[i]? = some (Hi * Ti + xi * (1 - Ti)) :=
    getElem?_zipWith_some _ _ _ _ _ _
      (getElem?_zipWith_some _ _ _ _ _ _ hH hT)
      (getElem?_zipWith_some _ _ _ _ _ _ hx hc)
  refine ⟨hc, hout, ?_, ?_⟩
  · intro h0
    rw [hout, h0]
    norm_num
  · intro h1
    rw [hout, h1]
    norm_num

/-- Witness for `highway_layer_algebra` at `x = [2]`, `H = [3]`,
`T = [1/2]`, coordinate `0`. -/
theorem highway_layer_algebra_witness :
    (carry_gate [1/2])[0]? = some (1 - 1/2) ∧
    (highway_out [2] [3] [1/2])[0]? = some (3 * (1/2) + 2 * (1 - 1/2)) ∧
    ((1 : ℚ)/2 = 0 → (highway_out [2] [3] [1/2])[0]? = some 2) ∧
    ((1 : ℚ)/2 = 1 → (highway_out [2] [3] [1/2])[0]? = some 3) :=
  highway_layer_algebra [2] [3] [1/2] 0 2 3 (1/2) rfl rfl rfl

/-- C3: the featurization pipeline (`fingerprint_mols` then `fps_to_arr`,
as in `RolloutPolicyNet.preprocess` and `ExpansionPolicyNet.preprocess`)
is deterministic: with the ambient random stream made explicit, two runs
from arbitrary stream states return the same boolean array and leave the
stream untouched; and the two preprocess methods compute the same
function. -/
theorem preprocess_deterministic (parse : String → Option Mol)
    (X : List String) (fp_dim : ℕ) (rngA rngB : List ℕ) :
    (RolloutPolicyNet.preprocessRun parse X fp_dim rngA).1
      = (RolloutPolicyNet.preprocessRun parse X fp_dim rngB).1 ∧
    (RolloutPolicyNet.preprocessRun parse X fp_dim rngA).2 = rngA ∧
    RolloutPolicyNet.preprocess parse X fp_dim
      = ExpansionPolicyNet.preprocess parse X fp_dim :=
  ⟨rfl, rfl, rfl⟩

/-- C4 counterexample: it is not the case that the `__main__` block
executes a training pass for each of the three networks — the rollout and
expansion training passes never occur in the script's action sequence. -/
theorem main_trains_three_cx :
    ¬ (ScriptEvent.trainNet NetKind.rollout ∈ mainEvents ∧
       ScriptEvent.trainNet NetKind.expansion ∈ mainEvents ∧
       ScriptEvent.trainNet NetKind.inscope ∈ mainEvents) := by
  decide

/-- C4 amended: the script defines three network classes but, when run to
completion, trains only the in-scope filter; the rollout `train` call is
commented out and `ExpansionPolicyNet` is never instantiated. -/
theorem main_trains_only_inscope :
    ScriptEvent.trainNet NetKind.inscope ∈ mainEvents ∧
    ScriptEvent.buildNet NetKind.rollout ∈ mainEvents ∧
    ScriptEvent.trainNet NetKind.rollout ∉ mainEvents ∧
    ScriptEvent.trainNet NetKind.expansion ∉ mainEvents ∧
    ScriptEvent.buildNet NetKind.expansion ∉ mainEvents := by
  decide

/-- C8: `fps_to_arr` fails on the empty list (it reads `len(fps[0])`),
and on every non-empty list of well-formed fingerprints of equal size `d`
returns an array of shape `(len(fps), d)` whose entry `(i, j)` is set iff
bit `j` of fingerprint `i` is on. -/
theorem fps_to_arr_spec (fps : List FP) (d : ℕ) (hne : fps ≠ [])
    (hd : ∀ fp ∈ fps, fp.numBits = d)
    (hwf : ∀ fp ∈ fps, ∀ b ∈ fp.onBits, b < fp.numBits) :
    fps_to_arr ([] : List FP) = none ∧
    ∃ arr, fps_to_arr fps = some arr ∧
      arr.length = fps.length ∧
      (∀ row ∈ arr, row.length = d) ∧
      (∀ (i : ℕ) (fp : FP) (row : List Bool), fps[i]? = some fp → arr[i]? = some row →
        ∀ j, j < d → row[j]? = some (decide (j ∈ fp.onBits))) := by
  refine ⟨rfl, ?_⟩
  cases fps with
  | nil => exact absurd rfl hne
  | cons fp0 rest =>
    have hd0 : fp0.numBits = d := hd fp0 (List.mem_cons_self fp0 rest)
    have hcond : ((fp0 :: rest).all fun fp =>
        fp.onBits.all fun b => decide (b < fp0.numBits)) = true := by
      rw [List.all_eq_true]
      intro fp hfp
      rw [List.all_eq_true]
      intro b hb
      have := hwf fp hfp b hb
      have h2 := hd fp hfp
      simp only [decide_eq_true_eq]
      omega
    refine ⟨(fp0 :: rest).map
        (fun fp => (List.range fp0.numBits).map (fun j => decide (j ∈ fp.onBits))),
      ?_, ?_, ?_, ?_⟩
    · rw [fps_to_arr, if_pos hcond]
    · simp
    · intro row hrow
      rcases List.mem_map.mp hrow with ⟨fp, hfp, rfl⟩
      simp [hd fp hfp, hd0]
    · intro i fp row hfp hrow
      intro j hj
      rw [List.getElem?_map, hfp] at hrow
      simp only [Option.map_some', Option.some.injEq] at hrow
      subst hrow
      rw [List.getElem?_map, List.getElem?_range (by omega : j < fp0.numBits)]
      simp

/-- Witness for `fps_to_arr_spec` at `fps = [⟨2, [1]⟩, ⟨2, [0]⟩]`,
`d = 2`. -/
theorem fps_to_arr_spec_witness :
    fps_to_arr ([] : List FP) = none ∧
    ∃ arr, fps_to_arr [⟨2, [1]⟩, ⟨2, [0]⟩] = some arr ∧
      arr.length = ([⟨2, [1]⟩, ⟨2, [0]⟩] : List FP).length ∧
      (∀ row ∈ arr, row.length = 2) ∧
      (∀ (i : ℕ) (fp : FP) (row : List Bool), ([⟨2, [1]⟩, ⟨2, [0]⟩] : List FP)[i]? = some fp →
        arr[i]? = some row →
        ∀ j, j < 2 → row[j]? = some (decide (j ∈ fp.onBits))) :=
  fps_to_arr_spec [⟨2, [1]⟩, ⟨2, [0]⟩] 2 (by decide)
    (by decide) (by decide)

/-- Any run of the modelled `random.shuffle` permutes the list: the
multiset of elements is preserved. -/
theorem shuffle_perm {α : Type} :
    ∀ (rng : List ℕ) (l : List α), List.Perm (shuffle rng l) l := by
  intro rng
  induction rng with
  | nil => intro l; exact List.Perm.refl l
  | cons r rs ih =>
    intro l
    show List.Perm (shuffle (r :: rs) l) l
    unfold shuffle
    split
    · exact List.Perm.refl l
    · rename_i x rest h
      have hsplit : l.take (r % l.length) ++ x :: rest = l := by
        rw [← h, List.take_append_drop]
      have step1 : List.Perm (x :: shuffle rs (l.take (r % l.length) ++ rest))
          (x :: (l.take (r % l.length) ++ rest)) :=
        List.Perm.cons x (ih _)
      have step2 : List.Perm (l.take (r % l.length) ++ x :: rest)
          (x :: (l.take (r % l.length) ++ rest)) := List.perm_middle
      rw [hsplit] at step2
      exact step1.trans step2.symm

/-- C10: the per-epoch shuffle in `train` permutes examples and labels
jointly — after `zip`, `random.shuffle`, `unzip`, the multiset of
(example, label) pairs equals the multiset before the shuffle, for every
random stream. -/
theorem epoch_shuffle_preserves_pairs {α β : Type} (X : List α)
    (y : List β) (rng : List ℕ) :
    List.Perm ((epochShuffle X y rng).1.zip (epochShuffle X y rng).2) (X.zip y) := by
  show List.Perm ((shuffle rng (X.zip y)).unzip.1.zip (shuffle rng (X.zip y)).unzip.2) (X.zip y)
  rw [List.zip_unzip]
  exact shuffle_perm rng (X.zip y)

theorem n_steps_zero (bs : ℕ) (hb : 0 < bs) : n_steps 0 bs = 0 := by
  unfold n_steps
  rw [Nat.zero_add]
  exact Nat.div_eq_of_lt (by omega)

theorem n_steps_closed (n bs : ℕ) (hb : 0 < bs) (hn : 0 < n) :
    n_steps n bs = (n - 1) / bs + 1 := by
  unfold n_steps
  have h1 : n + bs - 1 = (n - 1) + bs := by omega
  rw [h1, Nat.add_div_right _ hb]

theorem n_steps_succ (n bs : ℕ) (hb : 0 < bs) (hn : 0 < n) :
    n_steps n bs = n_steps (n - bs) bs + 1 := by
  rcases le_or_lt n bs with h | h
  · have h0 : n - bs = 0 := by omega
    rw [h0, n_steps_zero bs hb, n_steps_closed n bs hb hn]
    have : (n - 1) / bs = 0 := Nat.div_eq_of_lt (by omega)
    omega
  · rw [n_steps_closed n bs hb hn, n_steps_closed (n - bs) bs hb (by omega)]
    have h1 : n - 1 = (n - bs - 1) + bs := by omega
    rw [h1, Nat.add_div_right _ hb]

theorem batches_cons (X : List α) (bs : ℕ) (hb : 0 < bs) (hne : X ≠ []) :
    batches X bs = X.take bs :: batches (X.drop bs) bs := by
  have hlen : 0 < X.length := List.length_pos.mpr hne
  unfold batches
  rw [List.length_drop, n_steps_succ X.length bs hb hlen,
      List.range_succ_eq_map, List.map_cons, List.map_map]
  congr 1
  · simp
  · apply List.map_congr_left
    intro i _
    simp only [Function.comp_apply]
    rw [List.drop_drop, Nat.succ_mul, Nat.add_comm (i * bs) bs]

theorem batches_join_aux (bs : ℕ) (hb : 0 < bs) :
    ∀ (n : ℕ) (X : List α), X.length = n → (batches X bs).flatten = X := by
  intro n
  induction n using Nat.strong_induction_on with
  | _ n ih =>
    intro X hX
    rcases eq_or_ne X [] with rfl | hne
    · simp [batches, n_steps_zero bs hb]
    · have hpos : 0 < X.length := List.length_pos.mpr hne
      rw [batches_cons X bs hb hne, List.flatten_cons,
          ih (X.drop bs).length
            (by rw [List.length_drop]; omega) (X.drop bs) rfl,
          List.take_append_drop]

theorem n_steps_eq_ceil (n bs : ℕ) (hb : 0 < bs) :
    (n_steps n bs : ℤ) = ⌈(n : ℚ) / (bs : ℚ)⌉ := by
  have hq := Nat.div_add_mod (n + bs - 1) bs
  have hr := Nat.mod_lt (n + bs - 1) hb
  have h2 : bs * ((n + bs - 1) / bs) + (n + bs - 1) % bs + 1 = n + bs := by omega
  have h3 : (bs : ℚ) * ((n + bs - 1) / bs : ℕ) + ((n + bs - 1) % bs : ℕ) + 1
      = n + bs := by exact_mod_cast h2
  have hrQ : (((n + bs - 1) % bs : ℕ) : ℚ) < bs := by exact_mod_cast hr
  have hr0 : (0 : ℚ) ≤ (((n + bs - 1) % bs : ℕ) : ℚ) := by positivity
  have hbQ : (0 : ℚ) < bs := by exact_mod_cast hb
  have hcomm : bs * ((n + bs - 1) / bs) = ((n + bs - 1) / bs) * bs :=
    Nat.mul_comm _ _
  have hnat : n ≤ ((n + bs - 1) / bs) * bs := by omega
  symm
  rw [Int.ceil_eq_iff]
  constructor
  · rw [lt_div_iff₀ hbQ]
    push_cast
    unfold n_steps
    nlinarith [h3, hrQ, hr0]
  · rw [div_le_iff₀ hbQ]
    push_cast
    unfold n_steps
    exact_mod_cast hnat

/-- C5: each epoch of `train` runs `ceil(len(X)/batch_size)` batch steps
whose index slices `[i*bs, i*bs + bs)` partition the (shuffled) dataset:
their concatenation is the dataset itself, every non-final batch has
exactly `batch_size` examples, and the final batch is non-empty and no
larger than `batch_size`. -/
theorem train_epoch_covers (X : List α) (bs : ℕ)
    (hX : X ≠ []) (hb : 0 < bs) :
    (batches X bs).length = n_steps X.length bs ∧
    (n_steps X.length bs : ℤ) = ⌈(X.length : ℚ) / (bs : ℚ)⌉ ∧
    (batches X bs).flatten = X ∧
    (∀ i, i + 1 < n_steps X.length bs →
      ((X.drop (i * bs)).take bs).length = bs) ∧
    ((X.drop ((n_steps X.length bs - 1) * bs)).take bs).length
        = X.length - (n_steps X.length bs - 1) * bs ∧
    0 < X.length - (n_steps X.length bs - 1) * bs ∧
    X.length - (n_steps X.length bs - 1) * bs ≤ bs := by
  have hlen : 0 < X.length := List.length_pos.mpr hX
  have hdm := Nat.div_add_mod (X.length - 1) bs
  have hmod := Nat.mod_lt (X.length - 1) hb
  have hq1 : ((X.length - 1) / bs) * bs ≤ X.length - 1 :=
    Nat.div_mul_le_self (X.length - 1) bs
  have hcomm : bs * ((X.length - 1) / bs) = ((X.length - 1) / bs) * bs :=
    Nat.mul_comm _ _
  have hclosed := n_steps_closed X.length bs hb hlen
  refine ⟨by simp [batches], n_steps_eq_ceil X.length bs hb,
    batches_join_aux bs hb X.length X rfl, ?_, ?_, ?_, ?_⟩
  · intro i hi
    have hle : i + 1 ≤ (X.length - 1) / bs := by omega
    have hmul : (i + 1) * bs ≤ ((X.length - 1) / bs) * bs :=
      Nat.mul_le_mul_right bs hle
    have hexp : (i + 1) * bs = i * bs + bs := by ring
    rw [List.length_take, List.length_drop]
    exact Nat.min_eq_left (by omega)
  · rw [hclosed, Nat.add_sub_cancel, List.length_take, List.length_drop]
    exact Nat.min_eq_right (by omega)
  · rw [hclosed, Nat.add_sub_cancel]
    omega
  · rw [hclosed, Nat.add_sub_cancel]
    omega

/-- Witness for `train_epoch_covers` at `X = [1,2,3,4,5]`,
`batch_size = 2` (three steps: two full batches and a final batch of
one). -/
theorem train_epoch_covers_witness :
    (batches [1, 2, 3, 4, 5] 2).length = n_steps 5 2 ∧
    (n_steps 5 2 : ℤ) = ⌈(5 : ℚ) / (2 : ℚ)⌉ ∧
    (batches [1, 2, 3, 4, 5] 2).flatten = [1, 2, 3, 4, 5] ∧
    (∀ i, i + 1 < n_steps 5 2 →
      (([1, 2, 3, 4, 5].drop (i * 2)).take 2).length = 2) ∧
    (([1, 2, 3, 4, 5].drop ((n_steps 5 2 - 1) * 2)).take 2).length
        = 5 - (n_steps 5 2 - 1) * 2 ∧
    0 < 5 - (n_steps 5 2 - 1) * 2 ∧
    5 - (n_steps 5 2 - 1) * 2 ≤ 2 :=
  train_epoch_covers [1, 2, 3, 4, 5] 2 (by decide) (by decide)

/-- C6: `tf.nn.top_k` on a softmax row returns, for `1 ≤ k ≤ n_rules`,
exactly `k` (rule index, probability) pairs: genuine entries of the row,
ordered from highest to lowest probability, and dominating every entry of
the row that was not selected. -/
theorem expansion_top_k (row : List ℚ) (k : ℕ) (hk1 : 1 ≤ k)
    (hk : k ≤ row.length) :
    (top_k row k).length = k ∧
    List.Sorted (fun a b : ℕ × ℚ => b.2 ≤ a.2) (top_k row k) ∧
    (∀ p ∈ top_k row k, row[p.1]? = some p.2) ∧
    (∀ q ∈ row.enum, q ∉ top_k row k → ∀ p ∈ top_k row k, q.2 ≤ p.2) := by
  have ht : top_k row k = (List.insertionSort predOrder row.enum).take k := rfl
  have hsorted := List.sorted_insertionSort predOrder row.enum
  have hperm := List.perm_insertionSort predOrder row.enum
  have hlen : (List.insertionSort predOrder row.enum).length = row.length := by
    rw [List.length_insertionSort, List.enum_length]
  refine ⟨?_, ?_, ?_, ?_⟩
  · rw [ht, List.length_take, hlen]
    omega
  · have hp : List.Pairwise predOrder (top_k row k) := by
      rw [ht]
      exact List.Pairwise.sublist (List.take_sublist k _) hsorted
    refine hp.imp ?_
    intro a b hab
    rcases hab with h | ⟨h, _⟩
    · exact le_of_lt h
    · exact le_of_eq h.symm
  · intro p hp
    have h1 : p ∈ List.insertionSort predOrder row.enum :=
      List.mem_of_mem_take (ht ▸ hp)
    have h2 : p ∈ row.enum := hperm.subset h1
    obtain ⟨i, v⟩ := p
    exact List.mk_mem_enum_iff_getElem?.mp h2
  · intro q hq hqout p hp
    have hq1 : q ∈ List.insertionSort predOrder row.enum :=
      (hperm.mem_iff).mpr hq
    rw [← List.take_append_drop k (List.insertionSort predOrder row.enum)]
      at hq1
    rcases List.mem_append.mp hq1 with hqin | hqdrop
    · exact absurd (ht ▸ hqin) hqout
    · have hsplit : List.Pairwise predOrder
          (List.take k (List.insertionSort predOrder row.enum) ++
            List.drop k (List.insertionSort predOrder row.enum)) := by
        rw [List.take_append_drop]
        exact hsorted
      rw [List.pairwise_append] at hsplit
      have hrel := hsplit.2.2 p (ht ▸ hp) q hqdrop
      rcases hrel with h | ⟨h, _⟩
      · exact le_of_lt h
      · exact le_of_eq h.symm

/-- Witness for `expansion_top_k` at `row = [3, 1, 2]`, `k = 2`. -/
theorem expansion_top_k_witness :
    (top_k [3, 1, 2] 2).length = 2 ∧
    List.Sorted (fun a b : ℕ × ℚ => b.2 ≤ a.2) (top_k [3, 1, 2] 2) ∧
    (∀ p ∈ top_k [3, 1, 2] 2, ([3, 1, 2] : List ℚ)[p.1]? = some p.2) ∧
    (∀ q ∈ ([3, 1, 2] : List ℚ).enum, q ∉ top_k [3, 1, 2] 2 →
      ∀ p ∈ top_k [3, 1, 2] 2, q.2 ≤ p.2) :=
  expansion_top_k [3, 1, 2] 2 (by decide) (by decide)

theorem posPhaseRules_inv (prod : String) :
    ∀ (rules : List String) (acc : DataState × Option String),
      acc.1.y = List.replicate acc.1.X.length 1 →
      (posPhaseRules prod rules acc).1.y
        = List.replicate (posPhaseRules prod rules acc).1.X.length 1
  | [], _, h => h
  | r :: rs, acc, h => by
    rw [posPhaseRules]
    apply posPhaseRules_inv prod rs
    simp [h, List.replicate_succ']

theorem posPhaseAux_inv (er : List String) :
    ∀ (ptr : List (String × List String)) (acc : DataState × Option String),
      acc.1.y = List.replicate acc.1.X.length 1 →
      (posPhaseAux er ptr acc).1.y
        = List.replicate (posPhaseAux er ptr acc).1.X.length 1
  | [], _, h => h
  | pr :: rest, acc, h => by
    rw [posPhaseAux]
    exact posPhaseAux_inv er rest _ (posPhaseRules_inv pr.1 _ acc h)

/-- The positive phase labels every example `1.`: its label list is
`replicate len(X) 1`. -/
theorem posPhase_y (ptr : List (String × List String)) (er : List String) :
    (posPhase ptr er).1.y
      = List.replicate (posPhase ptr er).1.X.length 1 :=
  posPhaseAux_inv er ptr (⟨[], [], []⟩, none) rfl

/-- The negative-sampling loop appends some number `m` of label-`0`
examples: it extends `X` by `m` entries and `y` by `m` zeros, whatever the
random stream does. -/
theorem negPhase_appends (prods exprules : List String) (rLast : String)
    (target : ℕ) :
    ∀ (rng : List (ℕ × ℕ)) (st : DataState),
      ∃ m, (negPhase prods exprules rLast target rng st).X.length
            = st.X.length + m ∧
        (negPhase prods exprules rLast target rng st).y
            = st.y ++ List.replicate m 0
  | [], st => ⟨0, by simp [negPhase]⟩
  | (a, b) :: rest, st => by
    rw [negPhase]
    by_cases hstop : target ≤ st.X.length
    · rw [if_pos hstop]
      exact ⟨0, by simp⟩
    · rw [if_neg hstop]
      split
      · rename_i prod rule hp hq
        by_cases hkey : st.exSet.contains (prod ++ "_" ++ rLast)
        · rw [if_pos hkey]
          exact negPhase_appends prods exprules rLast target rest st
        · rw [if_neg hkey]
          obtain ⟨m, h1, h2⟩ := negPhase_appends prods exprules rLast target
            rest { X := st.X ++ [(prod, rule)], y := st.y ++ [0]
                 , exSet := st.exSet }
          refine ⟨m + 1, ?_, ?_⟩
          · simp at h1
            simp [h1]
            omega
          · rw [h2]
            simp [List.replicate_succ, List.append_assoc]
      · exact ⟨0, by simp⟩

/-- C9: the in-scope filter dataset is balanced and label-aligned:
`len(X) = len(y)` for the final state under every random stream (every
intermediate loop state is the final state of the run on a truncated
stream, so the invariant holds after every append), and whenever the
negative-sampling loop reaches its target `2 * len(positives)` the labels
split into exactly as many `1.`s as `0.`s, both equal to the number of
positives. -/
theorem inscope_dataset_balanced (ptr : List (String × List String))
    (er : List String) (rng : List (ℕ × ℕ)) (fb : String) :
    (inscopeDataset ptr er rng fb).X.length
      = (inscopeDataset ptr er rng fb).y.length ∧
    ((inscopeDataset ptr er rng fb).X.length
        = 2 * (posPhase ptr er).1.X.length →
      (inscopeDataset ptr er rng fb).y.count 1
          = (posPhase ptr er).1.X.length ∧
      (inscopeDataset ptr er rng fb).y.count 0
          = (posPhase ptr er).1.X.length) := by
  have hy := posPhase_y ptr er
  obtain ⟨m, h1, h2⟩ := negPhase_appends (ptr.map Prod.fst) er
    ((posPhase ptr er).2.getD fb) ((posPhase ptr er).1.X.length * 2) rng
    (posPhase ptr er).1
  rw [inscopeDataset] at *
  rw [h1, h2, hy]
  constructor
  · simp
  · intro hterm
    have hm : m = (posPhase ptr er).1.X.length := by omega
    subst hm
    constructor
    · rw [List.count_append, List.count_replicate_self, List.count_replicate]
      norm_num
    · rw [List.count_append, List.count_replicate_self, List.count_replicate]
      norm_num

/-- Witness for `inscope_dataset_balanced`: two products with one positive
rule each, and a random stream that draws the two negatives
`("a", "r1")`, `("a", "r2")` before the loop reaches its target of 4. -/
theorem inscope_dataset_balanced_witness :
    (inscopeDataset [("a", ["r1"]), ("b", ["r2"])] ["r1", "r2"]
        [(0, 0), (0, 1)] "").X.length
      = (inscopeDataset [("a", ["r1"]), ("b", ["r2"])] ["r1", "r2"]
        [(0, 0), (0, 1)] "").y.length ∧
    ((inscopeDataset [("a", ["r1"]), ("b", ["r2"])] ["r1", "r2"]
        [(0, 0), (0, 1)] "").y.count 1
      = (posPhase [("a", ["r1"]), ("b", ["r2"])] ["r1", "r2"]).1.X.length ∧
    (inscopeDataset [("a", ["r1"]), ("b", ["r2"])] ["r1", "r2"]
        [(0, 0), (0, 1)] "").y.count 0
      = (posPhase [("a", ["r1"]), ("b", ["r2"])] ["r1", "r2"]).1.X.length) :=
  ⟨(inscope_dataset_balanced [("a", ["r1"]), ("b", ["r2"])] ["r1", "r2"]
      [(0, 0), (0, 1)] "").1,
   (inscope_dataset_balanced [("a", ["r1"]), ("b", ["r2"])] ["r1", "r2"]
      [(0, 0), (0, 1)] "").2 (by decide)⟩

/-- C1 (code bug on line 337): the dedup key of the negative-sampling
loop is built from the stale loop variable `r` (the last positive rule,
here `"r2"`), not from the freshly drawn `rule`.  With products
`a ↦ {r1}`, `b ↦ {r2}` and a draw of the candidate `("a", "r1")` — a pair
already in the dataset with label `1.` — the loop checks the key
`"a_r2"`, misses, and appends `("a", "r1")` again with label `0.`.  The
last conjunct runs the dedup the claim describes (`negPhaseSpec`, keyed on
the candidate pair itself) on the same draw: it correctly skips. -/
theorem inscope_dedup_bug :
    (posPhase [("a", ["r1"]), ("b", ["r2"])] ["r1", "r2"]).1.X
      = [("a", "r1"), ("b", "r2")] ∧
    (posPhase [("a", ["r1"]), ("b", ["r2"])] ["r1", "r2"]).1.y = [1, 1] ∧
    (inscopeDataset [("a", ["r1"]), ("b", ["r2"])] ["r1", "r2"] [(0, 0)] "").X
      = [("a", "r1"), ("b", "r2"), ("a", "r1")] ∧
    (inscopeDataset [("a", ["r1"]), ("b", ["r2"])] ["r1", "r2"] [(0, 0)] "").y
      = [1, 1, 0] ∧
    (negPhaseSpec ["a", "b"] ["r1", "r2"] 4 [(0, 0)]
        (posPhase [("a", ["r1"]), ("b", ["r2"])] ["r1", "r2"]).1).X
      = [("a", "r1"), ("b", "r2")] := by
  refine ⟨?_, ?_, ?_, ?_, ?_⟩ <;> decide

end Policies
